import Mathlib

/-!
# Verification of the `propagate_control_flow` normalization pass

A shallow embedding of
`src/cwe_checker_lib/src/intermediate_representation/project/propagate_control_flow.rs`
together with the intermediate-representation data model it operates on.
The IR term types (`Tid`, `Term`, `Expression`, `Def`, `Jmp`, `Blk`, `Sub`,
`Program`) and the control-flow-graph edge classification are declared outside
the file under verification; they are modelled here from the specification's
data-model section.  The functions of the pass itself
(`negate_condition`, `check_for_retargetable_block`,
`find_target_for_retargetable_jump`, the per-block retarget planner,
`retarget_jumps`, `get_precondition_from_incoming_edges`,
`get_block_precondition_after_defs`, `get_nodes_without_incoming_edge`,
`remove_new_orphaned_blocks`) are translated directly from the source.
-/

namespace PropagateControlFlow

/-- Modelled from the spec: an identity value ("term identifier"), a globally
unique stable key identifying a block, jump or subroutine. -/
structure Tid where
  id : Nat
deriving DecidableEq, Repr

/-- Modelled from the spec: a variable/register name (the `Variable` type of
the IR, declared outside the verified file). -/
structure Variable where
  name : Nat
deriving DecidableEq, Repr

/-- Modelled from the spec: unary operators; the boolean-negation operator is
distinguished for canonical negation handling. -/
inductive UnOpType where
  | BoolNegate
  | IntNegate
deriving DecidableEq, Repr

/-- Modelled from the spec: binary operators of the expression tree. -/
inductive BinOpType where
  | IntEqual
  | IntAdd
deriving DecidableEq, Repr

/-- Modelled from the spec: an expression is a tree of operations over
variables and constants; equality is structural/syntactic. -/
inductive Expression where
  | Var (v : Variable)
  | Const (c : Nat)
  | UnOp (op : UnOpType) (arg : Expression)
  | BinOp (op : BinOpType) (lhs : Expression) (rhs : Expression)
deriving DecidableEq, Repr

/-- Modelled from the spec: the set of variables an expression reads
(`Expression::input_vars`, declared outside the verified file). -/
def Expression.input_vars : Expression → List Variable
  | .Var v => [v]
  | .Const _ => []
  | .UnOp _ arg => arg.input_vars
  | .BinOp _ lhs rhs => lhs.input_vars ++ rhs.input_vars

/-- Modelled from the spec: a straight-line effect: assign-to-variable,
load-into-variable, or store-to-memory. -/
inductive Def where
  | Assign (var : Variable) (value : Expression)
  | Load (var : Variable) (address : Expression)
  | Store (address : Expression) (value : Expression)
deriving DecidableEq, Repr

/-- Modelled from the spec: a control-transfer terminator.  Call-family jumps
carry an optional return-target identity. -/
inductive Jmp where
  | Branch (target : Tid)
  | CBranch (condition : Expression) (target : Tid)
  | Call (target : Tid) (return_ : Option Tid)
  | CallInd (target : Expression) (return_ : Option Tid)
  | CallOther (description : Nat) (return_ : Option Tid)
  | Return (value : Expression)
deriving DecidableEq, Repr

/-- Modelled from the spec: a term pairs a payload with its own unique
identity value. -/
structure Term (α : Type) where
  tid : Tid
  term : α
deriving DecidableEq, Repr

/-- Modelled from the spec: a block holds an ordered sequence of definitions
followed by its jump terminators, plus recorded indirect jump targets. -/
structure Blk where
  defs : List (Term Def)
  jmps : List (Term Jmp)
  indirect_jmp_targets : List Tid
deriving DecidableEq, Repr

/-- Modelled from the spec: a subroutine owns an ordered sequence of blocks
(insertion order, not control-flow order). -/
structure Sub where
  name : Nat
  blocks : List (Term Blk)
deriving DecidableEq, Repr

/-- Modelled from the spec: the program maps subroutine identities to
subroutines; we keep the ordered sequence of subroutine terms, which is what
the pass iterates over. -/
structure Program where
  subs : List (Term Sub)
deriving DecidableEq, Repr

/-- Modelled from the spec: classification of control-flow-graph edges.
A `Jump` edge carries the jump term it represents and, when it is the
unconditional "else" side of a conditional-branch pair, the sibling
conditional jump term.  `CallEdge`, `BlockEdge` and `ReturnStub` stand for
the remaining edge classes (call edges, block-internal edges, return edges),
none of which yields a usable condition. -/
inductive Edge where
  | Jump (jmp : Term Jmp) (sibling : Option (Term Jmp))
  | BlockEdge
  | CallEdge (jmp : Term Jmp)
  | ReturnStub
deriving DecidableEq, Repr

/-- Negate the given boolean condition expression, removing double negations
in the process (translated from `negate_condition`). -/
def negate_condition (expr : Expression) : Expression :=
  match expr with
  | .UnOp .BoolNegate arg => arg
  | e => .UnOp .BoolNegate e

/-- Check whether the given block contains no `Def` instructions and, if so,
whether the target of the jump at the end of the block is predictable under
the assumption that the given `true_conditions` evaluate to true (translated
from `check_for_retargetable_block`). -/
def check_for_retargetable_block (block : Term Blk)
    (true_conditions : List Expression) : Option Tid :=
  if block.term.defs ≠ [] then
    none
  else
    match block.term.jmps with
    | [⟨_, .Branch target⟩] => some target
    | [⟨_, .CBranch condition if_target⟩, ⟨_, .Branch else_target⟩] =>
        true_conditions.findSome? fun true_condition =>
          if condition = true_condition then
            some if_target
          else if condition = negate_condition true_condition then
            some else_target
          else
            none
    | _ => none

/-- The body of the `while let` loop of `find_target_for_retargetable_jump`,
with an explicit fuel (the Rust loop needs no fuel; its termination is the
subject of the termination theorem below). -/
def find_target_loop (sub : Sub) (true_conditions : List Expression) :
    Nat → List Tid → Tid → Tid
  | 0, _, new_target => new_target
  | fuel + 1, visited_tids, new_target =>
    match sub.blocks.find? (fun blk => decide (blk.tid = new_target)) with
    | none => new_target
    | some block =>
      match check_for_retargetable_block block true_conditions with
      | none => new_target
      | some retarget =>
        if retarget ∈ visited_tids then
          new_target
        else
          find_target_loop sub true_conditions fuel (retarget :: visited_tids) retarget

/-- Follow sequences of jumps that are not interrupted by `Def` instructions
to their final jump target, using `true_conditions` to resolve conditional
jumps (translated from `find_target_for_retargetable_jump`; the fuel
`sub.blocks.length + 1` is shown sufficient by the termination theorem). -/
def find_target_for_retargetable_jump (target : Tid) (sub : Sub)
    (true_conditions : List Expression) : Option Tid :=
  let new_target :=
    find_target_loop sub true_conditions (sub.blocks.length + 1) [target] target
  if new_target ≠ target then some new_target else none

/-- The retarget-planner match of `propagate_control_flow` for a single
`BlkStart` node: given the block's derived precondition (the result of
`get_block_precondition_after_defs` for the node, passed as a parameter), the
owning subroutine and the block, produce the plan entries this block
contributes to `jmps_to_retarget`. -/
def plan_for_block (block_precondition : Option Expression) (sub : Sub)
    (block : Term Blk) : List (Tid × Tid) :=
  let true_conditions :=
    match block_precondition with
    | some p => [p]
    | none => []
  match block.term.jmps with
  | [⟨call_tid, .Call _ (some return_target)⟩] =>
      match find_target_for_retargetable_jump return_target sub [] with
      | some new_target => [(call_tid, new_target)]
      | none => []
  | [⟨call_tid, .CallInd _ (some return_target)⟩] =>
      match find_target_for_retargetable_jump return_target sub [] with
      | some new_target => [(call_tid, new_target)]
      | none => []
  | [⟨call_tid, .CallOther _ (some return_target)⟩] =>
      match find_target_for_retargetable_jump return_target sub [] with
      | some new_target => [(call_tid, new_target)]
      | none => []
  | [⟨jump_tid, .Branch target⟩] =>
      match find_target_for_retargetable_jump target sub true_conditions with
      | some new_target => [(jump_tid, new_target)]
      | none => []
  | [⟨jump_tid_if, .CBranch condition if_target⟩, ⟨jump_tid_else, .Branch else_target⟩] =>
      let if_entries :=
        match find_target_for_retargetable_jump if_target sub
            (true_conditions ++ [condition]) with
        | some new_target => [(jump_tid_if, new_target)]
        | none => []
      let else_entries :=
        match find_target_for_retargetable_jump else_target sub
            (true_conditions ++ [negate_condition condition]) with
        | some new_target => [(jump_tid_else, new_target)]
        | none => []
      if_entries ++ else_entries
  | _ => []

/-- The retargeting plan `jmps_to_retarget`: a map from jump identity to new
target identity (the Rust `HashMap<Tid, Tid>`, keys unique by construction;
modelled as an association list). -/
def Plan := List (Tid × Tid)

/-- `HashMap::remove`: look up and remove the first entry with the given key,
returning its value and the remaining map. -/
def plan_remove : List (Tid × Tid) → Tid → Option (Tid × List (Tid × Tid))
  | [], _ => none
  | (k, v) :: rest, tid =>
    if k = tid then
      some (v, rest)
    else
      match plan_remove rest tid with
      | some (v2, rest2) => some (v2, (k, v) :: rest2)
      | none => none

/-- The per-jump rewrite of `retarget_jumps`: overwrite the target field
(for branches) or the return-target field (for call-family jumps with a
return target) with the planned new identity.  `none` corresponds to the
`panic!("Unexpected type of jump encountered.")` arm. -/
def retarget_jmp (jmp : Jmp) (new_target : Tid) : Option Jmp :=
  match jmp with
  | .Branch _ => some (.Branch new_target)
  | .CBranch condition _ => some (.CBranch condition new_target)
  | .Call target (some _) => some (.Call target (some new_target))
  | .CallInd target (some _) => some (.CallInd target (some new_target))
  | .CallOther description (some _) => some (.CallOther description (some new_target))
  | _ => none

/-- `retarget_jumps` restricted to one jump list: rewrite each jump whose
identity is a key of the (threaded) plan, consuming the entry.  `none`
corresponds to the process aborting via `panic!`. -/
def retarget_jumps_in_jmps :
    List (Term Jmp) → List (Tid × Tid) → Option (List (Term Jmp) × List (Tid × Tid))
  | [], plan => some ([], plan)
  | jmp :: rest, plan =>
    match plan_remove plan jmp.tid with
    | none =>
      match retarget_jumps_in_jmps rest plan with
      | some (rest2, plan2) => some (jmp :: rest2, plan2)
      | none => none
    | some (new_target, plan1) =>
      match retarget_jmp jmp.term new_target with
      | none => none
      | some jmp2 =>
        match retarget_jumps_in_jmps rest plan1 with
        | some (rest2, plan2) => some (⟨jmp.tid, jmp2⟩ :: rest2, plan2)
        | none => none

/-- `retarget_jumps` restricted to one block list. -/
def retarget_jumps_in_blocks :
    List (Term Blk) → List (Tid × Tid) → Option (List (Term Blk) × List (Tid × Tid))
  | [], plan => some ([], plan)
  | blk :: rest, plan =>
    match retarget_jumps_in_jmps blk.term.jmps plan with
    | none => none
    | some (jmps2, plan1) =>
      match retarget_jumps_in_blocks rest plan1 with
      | some (rest2, plan2) =>
        some (⟨blk.tid, ⟨blk.term.defs, jmps2, blk.term.indirect_jmp_targets⟩⟩ :: rest2, plan2)
      | none => none

/-- `retarget_jumps` restricted to one subroutine list. -/
def retarget_jumps_in_subs :
    List (Term Sub) → List (Tid × Tid) → Option (List (Term Sub) × List (Tid × Tid))
  | [], plan => some ([], plan)
  | sub :: rest, plan =>
    match retarget_jumps_in_blocks sub.term.blocks plan with
    | none => none
    | some (blocks2, plan1) =>
      match retarget_jumps_in_subs rest plan1 with
      | some (rest2, plan2) =>
        some (⟨sub.tid, ⟨sub.term.name, blocks2⟩⟩ :: rest2, plan2)
      | none => none

/-- Insert the new target identities into the jump instructions for which a
new target was computed (translated from `retarget_jumps`; `none` is the
fatal `panic!` on a plan/jump-shape mismatch; any entries left in the plan at
the end are dropped, exactly as the Rust function drops its map). -/
def retarget_jumps (program : Program) (jmps_to_retarget : List (Tid × Tid)) :
    Option Program :=
  match retarget_jumps_in_subs program.subs jmps_to_retarget with
  | some (subs2, _) => some ⟨subs2⟩
  | none => none

/-- The per-edge condition derivation of
`get_precondition_from_incoming_edges`: a lone conditional-branch edge yields
its condition, an unconditional-branch edge paired with a conditional branch
yields the negation of the sibling's condition, any other edge shape yields
nothing. -/
def edge_condition (edge : Edge) : Option Expression :=
  match edge with
  | .Jump ⟨_, .CBranch condition _⟩ none => some condition
  | .Jump ⟨_, .Branch _⟩ (some ⟨_, .CBranch condition _⟩) =>
      some (negate_condition condition)
  | _ => none

/-- The edge loop of `get_precondition_from_incoming_edges`, threading the
`first_condition` accumulator; an unexplainable edge or a disagreeing
condition aborts with `none`. -/
def precondition_loop : List Edge → Option Expression → Option Expression
  | [], first_condition => first_condition
  | edge :: rest, first_condition =>
    match edge_condition edge with
    | none => none
    | some condition =>
      match first_condition with
      | none => precondition_loop rest (some condition)
      | some first =>
        if first = condition then
          precondition_loop rest (some first)
        else
          none

/-- Return a condition known to be true before the execution of the block:
checks whether all edges incoming to the block are conditioned on the same
condition and, if so, returns the shared condition (translated from
`get_precondition_from_incoming_edges`; the node's incoming edge list is
passed directly). -/
def get_precondition_from_incoming_edges (incoming_edges : List Edge) :
    Option Expression :=
  precondition_loop incoming_edges none

/-- The variable written by a definition, if any: assign-to-variable and
load-into-variable write their variable, store-to-memory writes none
(the match of the def-walk in `get_block_precondition_after_defs`). -/
def def_written_var (d : Def) : Option Variable :=
  match d with
  | .Assign var _ => some var
  | .Load var _ => some var
  | .Store _ _ => none

/-- The def-walk of `get_block_precondition_after_defs`: check whether the
precondition still holds after all definitions executed. -/
def defs_invalidate (input_vars : List Variable) : List (Term Def) → Bool
  | [] => false
  | d :: rest =>
    match def_written_var d.term with
    | some var => var ∈ input_vars || defs_invalidate input_vars rest
    | none => defs_invalidate input_vars rest

/-- Return a condition known to be true after the execution of all defs of
the block (translated from `get_block_precondition_after_defs`; the `BlkStart`
node is given as its block, owning subroutine and incoming edge list.  The
Rust code indexes `sub.term.blocks[0]`, which requires a nonempty block list;
the empty case cannot occur for a CFG node). -/
def get_block_precondition_after_defs (block : Term Blk) (sub : Term Sub)
    (incoming_edges : List Edge) : Option Expression :=
  match sub.term.blocks with
  | [] => none
  | first_block :: _ =>
    if block.tid = first_block.tid then
      -- Function start blocks always have incoming caller edges
      -- even if these edges are missing in the CFG.
      none
    else
      match get_precondition_from_incoming_edges incoming_edges with
      | none => none
      | some block_precondition =>
        if defs_invalidate block_precondition.input_vars block.term.defs then
          none
        else
          some block_precondition

/-- Modelled from the spec: the derived control-flow graph, reduced to what
`get_nodes_without_incoming_edge` observes: every node carries the identity
of its block, and edges are pairs of node indices.  The CFG builder
(`graph::get_program_cfg`) is declared outside the verified file. -/
structure Graph where
  node_block_tids : List Tid
  edges : List (Nat × Nat)
deriving DecidableEq, Repr

/-- Whether a node (given by index) has an incoming edge in the graph. -/
def Graph.has_incoming_edge (cfg : Graph) (node : Nat) : Bool :=
  cfg.edges.any fun e => e.2 = node

/-- Iterate the CFG and return the block identities of all nodes that have no
incoming edge (translated from `get_nodes_without_incoming_edge`; the Rust
`HashSet<Tid>` is modelled as the list of collected identities, queried by
membership). -/
def get_nodes_without_incoming_edge (cfg : Graph) : List Tid :=
  (List.range cfg.node_block_tids.length).filterMap fun node =>
    if cfg.has_incoming_edge node then
      none
    else
      cfg.node_block_tids.get? node

/-- Calculate the difference of the orphaned block sets and remove the new
orphans from the program (translated from `remove_new_orphaned_blocks`). -/
def remove_new_orphaned_blocks (program : Program)
    (orphaned_blocks_before orphaned_blocks_after : List Tid) : Program :=
  let new_orphan_blocks :=
    orphaned_blocks_after.filter fun tid => tid ∉ orphaned_blocks_before
  ⟨program.subs.map fun sub =>
    ⟨sub.tid,
     ⟨sub.term.name,
      sub.term.blocks.filter fun blk => blk.tid ∉ new_orphan_blocks⟩⟩⟩

/-! ## Negation canonicality (C2) -/

/-- Whether an expression is a boolean negation of a boolean negation. -/
def is_double_negation : Expression → Bool
  | .UnOp .BoolNegate (.UnOp .BoolNegate _) => true
  | _ => false

/-- C2 counterexample: for the doubly negated expression `¬¬x`,
`negate_condition (negate_condition (¬¬x)) = x ≠ ¬¬x`, so
`negate(negate(e))` is not structurally equal to `e` for every `e`. -/
theorem negate_negate_counterexample :
    negate_condition (negate_condition
        (.UnOp .BoolNegate (.UnOp .BoolNegate (.Var ⟨0⟩)))) ≠
      Expression.UnOp .BoolNegate (.UnOp .BoolNegate (.Var ⟨0⟩)) := by
  decide

/-- C2 (amended): for every expression `e` that is not a boolean negation of a
boolean negation, `negate_condition (negate_condition e)` is structurally
equal to `e`. -/
theorem negate_negate_of_not_double_negation (e : Expression)
    (h : is_double_negation e = false) :
    negate_condition (negate_condition e) = e := by
  match e, h with
  | .Var _, _ => rfl
  | .Const _, _ => rfl
  | .BinOp _ _ _, _ => rfl
  | .UnOp .IntNegate _, _ => rfl
  | .UnOp .BoolNegate arg, h =>
    match arg, h with
    | .Var _, _ => rfl
    | .Const _, _ => rfl
    | .BinOp _ _ _, _ => rfl
    | .UnOp .IntNegate _, _ => rfl
    | .UnOp .BoolNegate _, h => simp [is_double_negation] at h

/-- Witness for C2 (amended) at the concrete expression `x`. -/
theorem negate_negate_of_not_double_negation_witness :
    is_double_negation (.Var ⟨0⟩) = false ∧
      negate_condition (negate_condition (.Var ⟨0⟩)) = Expression.Var ⟨0⟩ :=
  ⟨by decide, negate_negate_of_not_double_negation (.Var ⟨0⟩) (by decide)⟩

/-! ## Resolution of conditional blocks during chain resolution (C3) -/

/-- Modelled from the spec (amended claim): the search over `known_true` that
decides the next target of a definition-free conditional/unconditional pair:
the first expression `k` with `k` structurally equal to the condition picks
the if-target, the first with the condition structurally equal to
`negate(k)` picks the else-target; otherwise the chain stops. -/
def resolve_cond_target (condition : Expression) (if_target else_target : Tid) :
    List Expression → Option Tid
  | [] => none
  | k :: rest =>
    if condition = k then some if_target
    else if condition = negate_condition k then some else_target
    else resolve_cond_target condition if_target else_target rest

/-- C3 counterexample: a definition-free block ending in a conditional branch
with condition `c = ¬¬x` and a `known_true` list containing `negate(c) = ¬x`:
the claim predicts the else-target, but the code finds no match and stops,
because it compares `c` with `negate(k)`, not `k` with `negate(c)`. -/
theorem check_for_retargetable_block_counterexample :
    negate_condition (.UnOp .BoolNegate (.UnOp .BoolNegate (.Var ⟨0⟩))) ∈
        [Expression.UnOp .BoolNegate (.Var ⟨0⟩)] ∧
      check_for_retargetable_block
        ⟨⟨10⟩, ⟨[],
          [⟨⟨11⟩, .CBranch (.UnOp .BoolNegate (.UnOp .BoolNegate (.Var ⟨0⟩))) ⟨12⟩⟩,
           ⟨⟨13⟩, .Branch ⟨14⟩⟩], []⟩⟩
        [Expression.UnOp .BoolNegate (.Var ⟨0⟩)] = none := by
  constructor
  · decide
  · decide

/-- C3 (amended): for a definition-free block whose jumps are a
conditional-branch/unconditional-branch pair, `check_for_retargetable_block`
returns exactly the target selected by the first `known_true` expression `k`
with `k` structurally equal to the condition `c` (if-target) or with `c`
structurally equal to `negate(k)` (else-target), and `none` when no
expression matches either way. -/
theorem check_for_retargetable_block_cond_pair (block : Term Blk)
    (true_conditions : List Expression) (c : Expression)
    (jump_tid_if jump_tid_else if_target else_target : Tid)
    (hdefs : block.term.defs = [])
    (hjmps : block.term.jmps =
      [⟨jump_tid_if, .CBranch c if_target⟩, ⟨jump_tid_else, .Branch else_target⟩]) :
    check_for_retargetable_block block true_conditions =
      resolve_cond_target c if_target else_target true_conditions := by
  unfold check_for_retargetable_block
  rw [hjmps]
  simp only [hdefs, ne_eq, not_true_eq_false, if_false]
  induction true_conditions with
  | nil => rfl
  | cons k rest ih =>
    rw [List.findSome?_cons, resolve_cond_target]
    by_cases h1 : c = k
    · rw [if_pos h1, if_pos h1]
    · by_cases h2 : c = negate_condition k
      · rw [if_neg h1, if_pos h2, if_neg h1, if_pos h2]
      · rw [if_neg h1, if_neg h2, if_neg h1, if_neg h2]
        exact ih

/-- Witness for C3 (amended) at a concrete block and `known_true` list. -/
theorem check_for_retargetable_block_cond_pair_witness :
    check_for_retargetable_block
        ⟨⟨10⟩, ⟨[], [⟨⟨11⟩, .CBranch (.Var ⟨0⟩) ⟨12⟩⟩, ⟨⟨13⟩, .Branch ⟨14⟩⟩], []⟩⟩
        [Expression.Var ⟨0⟩] =
      resolve_cond_target (.Var ⟨0⟩) ⟨12⟩ ⟨14⟩ [Expression.Var ⟨0⟩] :=
  check_for_retargetable_block_cond_pair
    ⟨⟨10⟩, ⟨[], [⟨⟨11⟩, .CBranch (.Var ⟨0⟩) ⟨12⟩⟩, ⟨⟨13⟩, .Branch ⟨14⟩⟩], []⟩⟩
    [Expression.Var ⟨0⟩] (.Var ⟨0⟩) ⟨11⟩ ⟨13⟩ ⟨12⟩ ⟨14⟩ rfl rfl

/-! ## Entry-precondition derivation (C6, C7) -/

/-- The loop of `get_precondition_from_incoming_edges`, started in state
`some first`, succeeds with `c` exactly when `c` is the accumulated condition
and every remaining edge yields that same condition. -/
theorem precondition_loop_some_characterization (edges : List Edge)
    (first c : Expression) :
    precondition_loop edges (some first) = some c ↔
      c = first ∧ ∀ e ∈ edges, edge_condition e = some first := by
  induction edges generalizing first with
  | nil =>
    constructor
    · intro h
      exact ⟨(Option.some.injEq _ _ ▸ h).symm, fun e he => absurd he (List.not_mem_nil e)⟩
    · intro ⟨h, _⟩
      rw [h]
      rfl
  | cons e rest ih =>
    cases hce : edge_condition e with
    | none =>
      simp only [precondition_loop, hce, List.mem_cons]
      constructor
      · intro h
        exact absurd h (by simp)
      · intro ⟨_, hall⟩
        rw [hall e (Or.inl rfl)] at hce
        exact absurd hce (by simp)
    | some cond =>
      simp only [precondition_loop, hce]
      by_cases heq : first = cond
      · rw [if_pos heq, ih]
        simp only [List.mem_cons]
        constructor
        · intro ⟨h1, h2⟩
          exact ⟨h1, fun x hx => hx.elim (fun hxe => hxe ▸ hce ▸ heq ▸ rfl) (h2 x)⟩
        · intro ⟨h1, h2⟩
          exact ⟨h1, fun x hx => h2 x (Or.inr hx)⟩
      · rw [if_neg heq]
        simp only [List.mem_cons]
        constructor
        · intro h
          exact absurd h (by simp)
        · intro ⟨_, hall⟩
          rw [hall e (Or.inl rfl)] at hce
          exact absurd (Option.some.injEq _ _ ▸ hce) heq

/-- C6: `get_precondition_from_incoming_edges` returns a condition `c` exactly
when the node has at least one incoming edge and every incoming edge yields
`c` — a lone conditional-branch edge contributing its condition, an
unconditional-branch edge paired with a conditional branch contributing the
negation of the sibling's condition, and any other edge shape (which yields
no condition) poisoning the result.  In particular the result is `none` for
zero incoming edges, for any unexplainable edge, and whenever two edges yield
conditions that are not structurally equal. -/
theorem get_precondition_from_incoming_edges_characterization
    (incoming_edges : List Edge) (c : Expression) :
    get_precondition_from_incoming_edges incoming_edges = some c ↔
      incoming_edges ≠ [] ∧ ∀ e ∈ incoming_edges, edge_condition e = some c := by
  cases incoming_edges with
  | nil =>
    constructor
    · intro h
      exact absurd h (by simp [get_precondition_from_incoming_edges, precondition_loop])
    · intro ⟨h, _⟩
      exact absurd rfl h
  | cons e rest =>
    rw [get_precondition_from_incoming_edges, precondition_loop]
    cases hce : edge_condition e with
    | none =>
      constructor
      · intro h
        exact absurd h (by simp)
      · intro ⟨_, hall⟩
        rw [hall e (List.mem_cons_self e rest)] at hce
        exact absurd hce (by simp)
    | some cond =>
      rw [precondition_loop_some_characterization]
      constructor
      · intro ⟨h1, h2⟩
        refine ⟨List.cons_ne_nil e rest, fun x hx => ?_⟩
        rcases List.mem_cons.mp hx with hxe | hxr
        · rw [hxe, hce, h1]
        · rw [h2 x hxr, h1]
      · intro ⟨_, hall⟩
        have he := hall e (List.mem_cons_self e rest)
        rw [hce] at he
        have hcc : cond = c := Option.some.injEq _ _ ▸ he
        exact ⟨hcc.symm, fun x hx => (hall x (List.mem_cons_of_mem e hx)).trans (by rw [hcc])⟩

/-- C7: for every subroutine whose block list starts with `first_block` and
every incoming-edge list, `get_block_precondition_after_defs` returns `none`
for that first block, regardless of how many incoming edges it has or which
conditions they carry. -/
theorem get_block_precondition_after_defs_first_block (block : Term Blk)
    (sub : Term Sub) (incoming_edges : List Edge) (first_block : Term Blk)
    (rest : List (Term Blk))
    (hblocks : sub.term.blocks = first_block :: rest)
    (hfirst : block.tid = first_block.tid) :
    get_block_precondition_after_defs block sub incoming_edges = none := by
  unfold get_block_precondition_after_defs
  rw [hblocks]
  simp [hfirst]

/-- Witness for C7 at a concrete one-block subroutine with a conditional
incoming edge. -/
theorem get_block_precondition_after_defs_first_block_witness :
    get_block_precondition_after_defs
        ⟨⟨1⟩, ⟨[], [⟨⟨2⟩, .Branch ⟨1⟩⟩], []⟩⟩
        ⟨⟨0⟩, ⟨0, [⟨⟨1⟩, ⟨[], [⟨⟨2⟩, .Branch ⟨1⟩⟩], []⟩⟩]⟩⟩
        [.Jump ⟨⟨3⟩, .CBranch (.Var ⟨0⟩) ⟨1⟩⟩ none] = none :=
  get_block_precondition_after_defs_first_block
    ⟨⟨1⟩, ⟨[], [⟨⟨2⟩, .Branch ⟨1⟩⟩], []⟩⟩
    ⟨⟨0⟩, ⟨0, [⟨⟨1⟩, ⟨[], [⟨⟨2⟩, .Branch ⟨1⟩⟩], []⟩⟩]⟩⟩
    [.Jump ⟨⟨3⟩, .CBranch (.Var ⟨0⟩) ⟨1⟩⟩ none]
    ⟨⟨1⟩, ⟨[], [⟨⟨2⟩, .Branch ⟨1⟩⟩], []⟩⟩ [] rfl rfl

/-! ## Post-definition precondition projection (C8) -/

/-- The def-walk flag is set exactly when some definition writes (by assign
or load) a variable read by the precondition. -/
theorem defs_invalidate_iff (input_vars : List Variable) (defs : List (Term Def)) :
    defs_invalidate input_vars defs = true ↔
      ∃ d ∈ defs, ∃ v, def_written_var d.term = some v ∧ v ∈ input_vars := by
  induction defs with
  | nil =>
    simp [defs_invalidate]
  | cons d rest ih =>
    rw [defs_invalidate]
    cases hw : def_written_var d.term with
    | none =>
      rw [ih]
      constructor
      · intro ⟨x, hx, hv⟩
        exact ⟨x, List.mem_cons_of_mem d hx, hv⟩
      · intro ⟨x, hx, v, hv, hmem⟩
        rcases List.mem_cons.mp hx with hxd | hxr
        · rw [hxd, hw] at hv
          exact absurd hv (by simp)
        · exact ⟨x, hxr, v, hv, hmem⟩
    | some var =>
      rw [Bool.or_eq_true, ih]
      constructor
      · intro h
        rcases h with hmem | ⟨x, hx, hv⟩
        · exact ⟨d, List.mem_cons_self d rest, var, hw, by
            exact decide_eq_true_eq.mp hmem⟩
        · exact ⟨x, List.mem_cons_of_mem d hx, hv⟩
      · intro ⟨x, hx, v, hv, hmem⟩
        rcases List.mem_cons.mp hx with hxd | hxr
        · rw [hxd, hw] at hv
          have : var = v := Option.some.injEq _ _ ▸ hv
          exact Or.inl (by rw [this]; exact decide_eq_true hmem)
        · exact Or.inr ⟨x, hxr, v, hv, hmem⟩

/-- C8: given that a (non-first) block's incoming edges yield the entry
precondition `p`, the post-definition precondition is `none` exactly when
some assign-to-variable or load-into-variable definition of the block writes
a variable read by `p` (store-to-memory definitions write no variable and so
never invalidate), and when no definition invalidates `p` the returned
expression is the unchanged `p`. -/
theorem get_block_precondition_after_defs_characterization (block : Term Blk)
    (sub : Term Sub) (incoming_edges : List Edge) (p : Expression)
    (first_block : Term Blk) (rest : List (Term Blk))
    (hblocks : sub.term.blocks = first_block :: rest)
    (hnotfirst : block.tid ≠ first_block.tid)
    (hpre : get_precondition_from_incoming_edges incoming_edges = some p) :
    (get_block_precondition_after_defs block sub incoming_edges = none ↔
        ∃ d ∈ block.term.defs, ∃ v,
          def_written_var d.term = some v ∧ v ∈ p.input_vars) ∧
      ((¬ ∃ d ∈ block.term.defs, ∃ v,
          def_written_var d.term = some v ∧ v ∈ p.input_vars) →
        get_block_precondition_after_defs block sub incoming_edges = some p) := by
  simp only [get_block_precondition_after_defs, hblocks, if_neg hnotfirst, hpre]
  constructor
  · by_cases hinv : defs_invalidate p.input_vars block.term.defs = true
    · rw [if_pos hinv]
      simp only [true_iff]
      exact (defs_invalidate_iff _ _).mp hinv
    · rw [if_neg hinv]
      simp only [reduceCtorEq, false_iff]
      intro hex
      exact hinv ((defs_invalidate_iff _ _).mpr hex)
  · intro hex
    have hinv : defs_invalidate p.input_vars block.term.defs ≠ true := fun h =>
      hex ((defs_invalidate_iff _ _).mp h)
    rw [if_neg hinv]

/-- Witness for C8 at a concrete block with one store definition (which does
not invalidate the precondition). -/
theorem get_block_precondition_after_defs_characterization_witness :
    get_block_precondition_after_defs
        ⟨⟨1⟩, ⟨[⟨⟨7⟩, .Store (.Var ⟨0⟩) (.Var ⟨0⟩)⟩], [⟨⟨2⟩, .Branch ⟨0⟩⟩], []⟩⟩
        ⟨⟨0⟩, ⟨0, [⟨⟨9⟩, ⟨[], [], []⟩⟩, ⟨⟨1⟩, ⟨[⟨⟨7⟩, .Store (.Var ⟨0⟩) (.Var ⟨0⟩)⟩], [⟨⟨2⟩, .Branch ⟨0⟩⟩], []⟩⟩]⟩⟩
        [.Jump ⟨⟨3⟩, .CBranch (.Var ⟨0⟩) ⟨1⟩⟩ none] = some (.Var ⟨0⟩) := by
  refine (get_block_precondition_after_defs_characterization
    ⟨⟨1⟩, ⟨[⟨⟨7⟩, .Store (.Var ⟨0⟩) (.Var ⟨0⟩)⟩], [⟨⟨2⟩, .Branch ⟨0⟩⟩], []⟩⟩
    ⟨⟨0⟩, ⟨0, [⟨⟨9⟩, ⟨[], [], []⟩⟩, ⟨⟨1⟩, ⟨[⟨⟨7⟩, .Store (.Var ⟨0⟩) (.Var ⟨0⟩)⟩], [⟨⟨2⟩, .Branch ⟨0⟩⟩], []⟩⟩]⟩⟩
    [.Jump ⟨⟨3⟩, .CBranch (.Var ⟨0⟩) ⟨1⟩⟩ none] (.Var ⟨0⟩)
    ⟨⟨9⟩, ⟨[], [], []⟩⟩ _ rfl (by decide) rfl).2 ?_
  decide

/-! ## Orphan reconciliation (C5) -/

/-- C5: running the orphan reconciler with the orphan sets computed before
and after the rewrite keeps every subroutine (same identity, same name, same
relative block order), keeps every block whose identity had zero incoming
graph edges already before the rewrite, and deletes exactly the blocks whose
identity has zero incoming edges after the rewrite but had at least one
before it. -/
theorem remove_new_orphaned_blocks_characterization (program : Program)
    (cfg_before cfg_after : Graph) :
    List.Forall₂ (fun sub sub2 =>
        sub2.tid = sub.tid ∧ sub2.term.name = sub.term.name ∧
        (∀ blk ∈ sub.term.blocks,
          (blk ∈ sub2.term.blocks ↔
            ¬(blk.tid ∈ get_nodes_without_incoming_edge cfg_after ∧
              blk.tid ∉ get_nodes_without_incoming_edge cfg_before))) ∧
        ∀ blk ∈ sub2.term.blocks, blk ∈ sub.term.blocks)
      program.subs
      (remove_new_orphaned_blocks program
        (get_nodes_without_incoming_edge cfg_before)
        (get_nodes_without_incoming_edge cfg_after)).subs := by
  unfold remove_new_orphaned_blocks
  rw [List.forall₂_map_right_iff, List.forall₂_same]
  intro sub _
  refine ⟨rfl, rfl, fun blk hmem => ?_, fun blk hmem => (List.mem_filter.mp hmem).1⟩
  rw [List.mem_filter]
  constructor
  · intro ⟨_, hkeep⟩
    intro ⟨hafter, hbefore⟩
    have : blk.tid ∈ (get_nodes_without_incoming_edge cfg_after).filter
        (fun tid => tid ∉ get_nodes_without_incoming_edge cfg_before) :=
      List.mem_filter.mpr ⟨hafter, by simpa using hbefore⟩
    simp only [decide_eq_true_eq] at hkeep
    exact hkeep this
  · intro hnot
    refine ⟨hmem, ?_⟩
    simp only [decide_eq_true_eq]
    intro hin
    have := List.mem_filter.mp hin
    simp only [decide_eq_true_eq] at this
    exact hnot ⟨this.1, this.2⟩

/-! ## Termination of the chain resolver (C9) -/

/-- The block identities of a subroutine that are not yet in the visited
set: the quantity that shrinks at every advancing loop iteration. -/
def unvisited_block_count (sub : Sub) (visited_tids : List Tid) : Nat :=
  (((sub.blocks.map fun blk => blk.tid).toFinset) \ visited_tids.toFinset).card

theorem unvisited_block_count_le (sub : Sub) (visited_tids : List Tid) :
    unvisited_block_count sub visited_tids ≤ sub.blocks.length := by
  calc (((sub.blocks.map fun blk => blk.tid).toFinset) \ visited_tids.toFinset).card
      ≤ ((sub.blocks.map fun blk => blk.tid).toFinset).card :=
        Finset.card_le_card (Finset.sdiff_subset)
    _ ≤ (sub.blocks.map fun blk => blk.tid).length := List.toFinset_card_le _
    _ = sub.blocks.length := List.length_map _ _

theorem unvisited_block_count_lt (sub : Sub) (visited_tids : List Tid)
    (retarget : Tid) (hmem : retarget ∈ sub.blocks.map fun blk => blk.tid)
    (hnew : retarget ∉ visited_tids) :
    unvisited_block_count sub (retarget :: visited_tids) <
      unvisited_block_count sub visited_tids := by
  unfold unvisited_block_count
  rw [List.toFinset_cons, Finset.sdiff_insert]
  exact Finset.card_erase_lt_of_mem
    (Finset.mem_sdiff.mpr ⟨List.mem_toFinset.mpr hmem, fun h =>
      hnew (List.mem_toFinset.mp h)⟩)

/-- If the current target is not the identity of any block in the
subroutine, the loop stops at once, for any fuel and visited set. -/
theorem find_target_loop_of_not_mem (sub : Sub)
    (true_conditions : List Expression) (cur : Tid)
    (hnot : cur ∉ sub.blocks.map fun blk => blk.tid) :
    ∀ (fuel : Nat) (visited_tids : List Tid),
      find_target_loop sub true_conditions fuel visited_tids cur = cur := by
  intro fuel visited_tids
  cases fuel with
  | zero => rfl
  | succ n =>
    rw [find_target_loop]
    have hfind : sub.blocks.find? (fun blk => decide (blk.tid = cur)) = none := by
      rw [List.find?_eq_none]
      intro blk hblk h
      exact hnot (List.mem_map.mpr ⟨blk, hblk, of_decide_eq_true h⟩)
    rw [hfind]

/-- The loop's value does not depend on the fuel once the fuel exceeds the
number of unvisited block identities. -/
theorem find_target_loop_fuel_irrelevant (sub : Sub)
    (true_conditions : List Expression) :
    ∀ (fuel1 fuel2 : Nat) (visited_tids : List Tid) (cur : Tid),
      unvisited_block_count sub visited_tids < fuel1 →
      unvisited_block_count sub visited_tids < fuel2 →
      find_target_loop sub true_conditions fuel1 visited_tids cur =
        find_target_loop sub true_conditions fuel2 visited_tids cur := by
  intro fuel1
  induction fuel1 with
  | zero =>
    intro fuel2 visited_tids cur h1 _
    exact absurd h1 (Nat.not_lt_zero _)
  | succ n ih =>
    intro fuel2 visited_tids cur h1 h2
    cases fuel2 with
    | zero => exact absurd h2 (Nat.not_lt_zero _)
    | succ m =>
      cases hfind : sub.blocks.find? (fun blk => decide (blk.tid = cur)) with
      | none => simp only [find_target_loop, hfind]
      | some block =>
        cases hcheck : check_for_retargetable_block block true_conditions with
        | none => simp only [find_target_loop, hfind, hcheck]
        | some retarget =>
          by_cases hvis : retarget ∈ visited_tids
          · simp only [find_target_loop, hfind, hcheck, if_pos hvis]
          · simp only [find_target_loop, hfind, hcheck, if_neg hvis]
            by_cases hmem : retarget ∈ sub.blocks.map fun blk => blk.tid
            · have hlt := unvisited_block_count_lt sub visited_tids retarget hmem hvis
              exact ih m (retarget :: visited_tids) retarget
                (Nat.lt_of_lt_of_le hlt (Nat.lt_succ_iff.mp h1))
                (Nat.lt_of_lt_of_le hlt (Nat.lt_succ_iff.mp h2))
            · rw [find_target_loop_of_not_mem sub true_conditions retarget hmem,
                find_target_loop_of_not_mem sub true_conditions retarget hmem]

/-- C9: for every subroutine, start target and known-true condition list, the
chain-resolver loop of `find_target_for_retargetable_jump` reaches its final
value within `|blocks in the subroutine| + 1` iterations: granting it any
number of additional iterations never changes the result (each advancing
iteration inserts a previously unseen block identity into the visited set,
and only identities of blocks of the subroutine can be looked up again), even
when the definition-free blocks of the subroutine form a jump cycle. -/
theorem find_target_loop_terminates_within_bound (sub : Sub)
    (true_conditions : List Expression) (target : Tid) (extra : Nat) :
    find_target_loop sub true_conditions (sub.blocks.length + 1 + extra)
        [target] target =
      find_target_loop sub true_conditions (sub.blocks.length + 1)
        [target] target := by
  have hle := unvisited_block_count_le sub [target]
  exact find_target_loop_fuel_irrelevant sub true_conditions _ _ [target] target
    (Nat.lt_of_le_of_lt hle (by omega))
    (Nat.lt_succ_of_le hle)

/-! ## Safety of call-return retargeting (C1) -/

/-- A path from `a` to `c` in the subroutine passing only through blocks that
have no definitions and end in a single unconditional branch. -/
inductive UncondChain (sub : Sub) : Tid → Tid → Prop
  | refl (t : Tid) : UncondChain sub t t
  | step (a b c : Tid) (block : Term Blk) (jump_tid : Tid)
      (hmem : block ∈ sub.blocks) (htid : block.tid = a)
      (hdefs : block.term.defs = [])
      (hjmps : block.term.jmps = [⟨jump_tid, .Branch b⟩])
      (hrest : UncondChain sub b c) : UncondChain sub a c

/-- With an empty known-true condition list, a block passes
`check_for_retargetable_block` only if it has no definitions and ends in a
single unconditional branch to the returned target. -/
theorem check_for_retargetable_block_empty_conditions (block : Term Blk)
    (t : Tid) (h : check_for_retargetable_block block [] = some t) :
    block.term.defs = [] ∧ ∃ jump_tid, block.term.jmps = [⟨jump_tid, .Branch t⟩] := by
  unfold check_for_retargetable_block at h
  by_cases hdefs : block.term.defs = []
  · rw [if_neg (by simp [hdefs])] at h
    refine ⟨hdefs, ?_⟩
    split at h
    · rename_i jump_tid target heq
      have ht : target = t := by injection h
      exact ⟨jump_tid, by rw [heq, ht]⟩
    · exact absurd h (by simp [List.findSome?_nil])
    · exact absurd h (by simp)
  · rw [if_pos (by simp [hdefs])] at h
    exact absurd h (by simp)

/-- Every value of the chain-resolver loop run with an empty condition list
is connected to the start target by an unconditional definition-free chain. -/
theorem find_target_loop_empty_conditions_chain (sub : Sub) :
    ∀ (fuel : Nat) (visited_tids : List Tid) (cur : Tid),
      UncondChain sub cur (find_target_loop sub [] fuel visited_tids cur) := by
  intro fuel
  induction fuel with
  | zero => exact fun _ cur => UncondChain.refl cur
  | succ n ih =>
    intro visited_tids cur
    cases hfind : sub.blocks.find? (fun blk => decide (blk.tid = cur)) with
    | none =>
      simp only [find_target_loop, hfind]
      exact UncondChain.refl cur
    | some block =>
      cases hcheck : check_for_retargetable_block block [] with
      | none =>
        simp only [find_target_loop, hfind, hcheck]
        exact UncondChain.refl cur
      | some retarget =>
        by_cases hvis : retarget ∈ visited_tids
        · simp only [find_target_loop, hfind, hcheck, if_pos hvis]
          exact UncondChain.refl cur
        · simp only [find_target_loop, hfind, hcheck, if_neg hvis]
          obtain ⟨hdefs, jump_tid, hjmps⟩ :=
            check_for_retargetable_block_empty_conditions block retarget hcheck
          have hp := List.find?_some hfind
          exact UncondChain.step cur retarget _ block jump_tid
            (List.mem_of_find?_eq_some hfind)
            (of_decide_eq_true hp) hdefs hjmps
            (ih (retarget :: visited_tids) retarget)

/-- The terminator shape "single call-family jump with a return target":
returns the call's jump identity and return-target identity. -/
def call_with_return_target : List (Term Jmp) → Option (Tid × Tid)
  | [⟨call_tid, .Call _ (some return_target)⟩] => some (call_tid, return_target)
  | [⟨call_tid, .CallInd _ (some return_target)⟩] => some (call_tid, return_target)
  | [⟨call_tid, .CallOther _ (some return_target)⟩] => some (call_tid, return_target)
  | _ => none

/-- If a retargetable target is found with the empty condition list, it is a
different identity reached by an unconditional definition-free chain. -/
theorem find_target_for_retargetable_jump_empty_conditions (sub : Sub)
    (target new_target : Tid)
    (h : find_target_for_retargetable_jump target sub [] = some new_target) :
    new_target ≠ target ∧ UncondChain sub target new_target := by
  unfold find_target_for_retargetable_jump at h
  by_cases hne : find_target_loop sub [] (sub.blocks.length + 1) [target] target ≠ target
  · rw [if_pos hne] at h
    have heq : find_target_loop sub [] (sub.blocks.length + 1) [target] target =
        new_target := Option.some.injEq _ _ ▸ h
    exact ⟨heq ▸ hne, heq ▸ find_target_loop_empty_conditions_chain sub _ [target] target⟩
  · rw [if_neg hne] at h
    exact absurd h (by simp)

/-- The planner's value on a block whose single jump is a direct call with a
return target. -/
theorem plan_for_block_call_eq (block_precondition : Option Expression)
    (sub : Sub) (btid : Tid) (bdefs : List (Term Def)) (bind : List Tid)
    (call_tid tgt return_target : Tid) :
    plan_for_block block_precondition sub
        ⟨btid, ⟨bdefs, [⟨call_tid, .Call tgt (some return_target)⟩], bind⟩⟩ =
      match find_target_for_retargetable_jump return_target sub [] with
      | some new_target => [(call_tid, new_target)]
      | none => [] := rfl

/-- The planner's value on a block whose single jump is an indirect call with
a return target. -/
theorem plan_for_block_callind_eq (block_precondition : Option Expression)
    (sub : Sub) (btid : Tid) (bdefs : List (Term Def)) (bind : List Tid)
    (call_tid : Tid) (tgt : Expression) (return_target : Tid) :
    plan_for_block block_precondition sub
        ⟨btid, ⟨bdefs, [⟨call_tid, .CallInd tgt (some return_target)⟩], bind⟩⟩ =
      match find_target_for_retargetable_jump return_target sub [] with
      | some new_target => [(call_tid, new_target)]
      | none => [] := rfl

/-- The planner's value on a block whose single jump is a foreign call with a
return target. -/
theorem plan_for_block_callother_eq (block_precondition : Option Expression)
    (sub : Sub) (btid : Tid) (bdefs : List (Term Def)) (bind : List Tid)
    (call_tid : Tid) (description : Nat) (return_target : Tid) :
    plan_for_block block_precondition sub
        ⟨btid, ⟨bdefs, [⟨call_tid, .CallOther description (some return_target)⟩], bind⟩⟩ =
      match find_target_for_retargetable_jump return_target sub [] with
      | some new_target => [(call_tid, new_target)]
      | none => [] := rfl

/-- Call-return safety for a block ending in a direct call. -/
theorem plan_for_block_call_safety_direct (block_precondition : Option Expression)
    (sub : Sub) (btid : Tid) (bdefs : List (Term Def)) (bind : List Tid)
    (call_tid tgt return_target jump_tid new_target : Tid)
    (hplan : (jump_tid, new_target) ∈ plan_for_block block_precondition sub
      ⟨btid, ⟨bdefs, [⟨call_tid, .Call tgt (some return_target)⟩], bind⟩⟩) :
    jump_tid = call_tid ∧ new_target ≠ return_target ∧
      UncondChain sub return_target new_target := by
  rw [plan_for_block_call_eq] at hplan
  cases hfind : find_target_for_retargetable_jump return_target sub [] with
  | none =>
    rw [hfind] at hplan
    simp at hplan
  | some nt =>
    rw [hfind] at hplan
    simp only [List.mem_singleton, Prod.mk.injEq] at hplan
    obtain ⟨hj, hn⟩ := hplan
    obtain ⟨hne, hchain⟩ :=
      find_target_for_retargetable_jump_empty_conditions sub return_target nt hfind
    exact ⟨hj, hn ▸ hne, hn ▸ hchain⟩

/-- Call-return safety for a block ending in an indirect call. -/
theorem plan_for_block_call_safety_ind (block_precondition : Option Expression)
    (sub : Sub) (btid : Tid) (bdefs : List (Term Def)) (bind : List Tid)
    (call_tid : Tid) (tgt : Expression) (return_target jump_tid new_target : Tid)
    (hplan : (jump_tid, new_target) ∈ plan_for_block block_precondition sub
      ⟨btid, ⟨bdefs, [⟨call_tid, .CallInd tgt (some return_target)⟩], bind⟩⟩) :
    jump_tid = call_tid ∧ new_target ≠ return_target ∧
      UncondChain sub return_target new_target := by
  rw [plan_for_block_callind_eq] at hplan
  cases hfind : find_target_for_retargetable_jump return_target sub [] with
  | none =>
    rw [hfind] at hplan
    simp at hplan
  | some nt =>
    rw [hfind] at hplan
    simp only [List.mem_singleton, Prod.mk.injEq] at hplan
    obtain ⟨hj, hn⟩ := hplan
    obtain ⟨hne, hchain⟩ :=
      find_target_for_retargetable_jump_empty_conditions sub return_target nt hfind
    exact ⟨hj, hn ▸ hne, hn ▸ hchain⟩

/-- Call-return safety for a block ending in a foreign call. -/
theorem plan_for_block_call_safety_other (block_precondition : Option Expression)
    (sub : Sub) (btid : Tid) (bdefs : List (Term Def)) (bind : List Tid)
    (call_tid : Tid) (description : Nat) (return_target jump_tid new_target : Tid)
    (hplan : (jump_tid, new_target) ∈ plan_for_block block_precondition sub
      ⟨btid, ⟨bdefs, [⟨call_tid, .CallOther description (some return_target)⟩], bind⟩⟩) :
    jump_tid = call_tid ∧ new_target ≠ return_target ∧
      UncondChain sub return_target new_target := by
  rw [plan_for_block_callother_eq] at hplan
  cases hfind : find_target_for_retargetable_jump return_target sub [] with
  | none =>
    rw [hfind] at hplan
    simp at hplan
  | some nt =>
    rw [hfind] at hplan
    simp only [List.mem_singleton, Prod.mk.injEq] at hplan
    obtain ⟨hj, hn⟩ := hplan
    obtain ⟨hne, hchain⟩ :=
      find_target_for_retargetable_jump_empty_conditions sub return_target nt hfind
    exact ⟨hj, hn ▸ hne, hn ▸ hchain⟩

/-- C1: for every block whose terminator is a single call-family jump (call,
indirect call, or foreign call) with a return target, and for every derived
precondition of the block, any entry the retarget planner records for that
block is keyed by the call's jump identity and retargets the call's
return-target to a strictly different identity that is reached from the
original return-target only through blocks that have no definitions and end
in a single unconditional branch — the plan is computed with an empty
known-true set, so no conditional-branch block is ever skipped over,
regardless of the precondition. -/
theorem plan_for_block_call_return_safety (block_precondition : Option Expression)
    (sub : Sub) (block : Term Blk) (call_tid return_target : Tid)
    (jump_tid new_target : Tid)
    (hcall : call_with_return_target block.term.jmps = some (call_tid, return_target))
    (hplan : (jump_tid, new_target) ∈ plan_for_block block_precondition sub block) :
    jump_tid = call_tid ∧ new_target ≠ return_target ∧
      UncondChain sub return_target new_target := by
  obtain ⟨btid, bterm⟩ := block
  obtain ⟨bdefs, bjmps, bind⟩ := bterm
  unfold call_with_return_target at hcall
  split at hcall
  all_goals
    try (rename_i c2 tgt r2 heq
         dsimp only at heq
         subst heq
         rw [Option.some.injEq, Prod.mk.injEq] at hcall
         obtain ⟨rfl, rfl⟩ := hcall
         first
           | exact plan_for_block_call_safety_direct _ _ _ _ _ _ _ _ _ _ hplan
           | exact plan_for_block_call_safety_ind _ _ _ _ _ _ _ _ _ _ hplan
           | exact plan_for_block_call_safety_other _ _ _ _ _ _ _ _ _ _ hplan)
  all_goals exact Option.noConfusion hcall

/-- Witness for C1 at a concrete subroutine: a call block returning to a
definition-free jump-only block, with a (necessarily ignored) nontrivial
block precondition. -/
theorem plan_for_block_call_return_safety_witness :
    (⟨2⟩ : Tid) = ⟨2⟩ ∧ (⟨6⟩ : Tid) ≠ ⟨4⟩ ∧
      UncondChain
        ⟨0, [⟨⟨1⟩, ⟨[], [⟨⟨2⟩, .Call ⟨3⟩ (some ⟨4⟩)⟩], []⟩⟩,
             ⟨⟨4⟩, ⟨[], [⟨⟨5⟩, .Branch ⟨6⟩⟩], []⟩⟩]⟩ ⟨4⟩ ⟨6⟩ :=
  plan_for_block_call_return_safety (some (.Var ⟨9⟩))
    ⟨0, [⟨⟨1⟩, ⟨[], [⟨⟨2⟩, .Call ⟨3⟩ (some ⟨4⟩)⟩], []⟩⟩,
         ⟨⟨4⟩, ⟨[], [⟨⟨5⟩, .Branch ⟨6⟩⟩], []⟩⟩]⟩
    ⟨⟨1⟩, ⟨[], [⟨⟨2⟩, .Call ⟨3⟩ (some ⟨4⟩)⟩], []⟩⟩
    ⟨2⟩ ⟨4⟩ ⟨2⟩ ⟨6⟩ (by decide) (by decide)

/-! ## The graph rewriter (C4, C10) -/

/-- The keys of a retargeting plan. -/
def plan_keys (plan : List (Tid × Tid)) : List Tid :=
  plan.map fun entry => entry.1

theorem plan_remove_eq_none_iff (plan : List (Tid × Tid)) (tid : Tid) :
    plan_remove plan tid = none ↔ tid ∉ plan_keys plan := by
  induction plan with
  | nil => simp [plan_remove, plan_keys]
  | cons entry rest ih =>
    obtain ⟨k, v⟩ := entry
    rw [plan_remove]
    by_cases hk : k = tid
    · rw [if_pos hk]
      simp [plan_keys, hk]
    · rw [if_neg hk]
      cases hrem : plan_remove rest tid with
      | none =>
        refine iff_of_true rfl ?_
        simp only [plan_keys, List.map_cons, List.mem_cons]
        intro hmem
        rcases hmem with hmem | hmem
        · exact hk hmem.symm
        · exact (ih.mp hrem) hmem
      | some p =>
        obtain ⟨v2, rest2⟩ := p
        simp only [plan_keys, List.map_cons, List.mem_cons]
        constructor
        · intro h
          exact absurd h (by simp)
        · intro hmem
          have : tid ∈ plan_keys rest := by
            by_contra hcon
            rw [← ih] at hcon
            rw [hcon] at hrem
            exact Option.noConfusion hrem
          exact absurd (Or.inr this) hmem

theorem plan_remove_some_mem (plan : List (Tid × Tid)) (tid : Tid)
    (v : Tid) (plan1 : List (Tid × Tid))
    (h : plan_remove plan tid = some (v, plan1)) : tid ∈ plan_keys plan := by
  by_contra hcon
  rw [← plan_remove_eq_none_iff] at hcon
  rw [hcon] at h
  exact Option.noConfusion h

theorem plan_remove_keys_subset (plan : List (Tid × Tid)) (tid : Tid) :
    ∀ (v : Tid) (plan1 : List (Tid × Tid)),
      plan_remove plan tid = some (v, plan1) →
      plan_keys plan1 ⊆ plan_keys plan := by
  induction plan with
  | nil =>
    intro v plan1 h
    exact absurd h (by simp [plan_remove])
  | cons entry rest ih =>
    intro v plan1 h
    obtain ⟨k, w⟩ := entry
    rw [plan_remove] at h
    by_cases hk : k = tid
    · rw [if_pos hk] at h
      injection h with hp
      obtain ⟨_, h2⟩ := Prod.mk.injEq _ _ _ _ ▸ hp
      subst h2
      exact fun x hx => List.mem_cons_of_mem _ hx
    · rw [if_neg hk] at h
      cases hrem : plan_remove rest tid with
      | none =>
        rw [hrem] at h
        exact absurd h (by simp)
      | some p =>
        obtain ⟨v2, rest2⟩ := p
        rw [hrem] at h
        injection h with hp
        obtain ⟨_, h2⟩ := Prod.mk.injEq _ _ _ _ ▸ hp
        subst h2
        intro x hx
        simp only [plan_keys, List.map_cons, List.mem_cons] at hx ⊢
        rcases hx with hx | hx
        · exact Or.inl hx
        · exact Or.inr (ih v2 rest2 hrem hx)

theorem plan_remove_preserves_other_keys (plan : List (Tid × Tid)) (tid : Tid) :
    ∀ (v : Tid) (plan1 : List (Tid × Tid)) (k : Tid),
      plan_remove plan tid = some (v, plan1) →
      k ∈ plan_keys plan → k ≠ tid → k ∈ plan_keys plan1 := by
  induction plan with
  | nil =>
    intro v plan1 k h
    exact absurd h (by simp [plan_remove])
  | cons entry rest ih =>
    intro v plan1 k h hmem hne
    obtain ⟨k0, w⟩ := entry
    rw [plan_remove] at h
    simp only [plan_keys, List.map_cons, List.mem_cons] at hmem
    by_cases hk : k0 = tid
    · rw [if_pos hk] at h
      injection h with hp
      obtain ⟨_, h2⟩ := Prod.mk.injEq _ _ _ _ ▸ hp
      subst h2
      rcases hmem with hmem | hmem
      · exact absurd (hmem.trans hk) hne
      · exact hmem
    · rw [if_neg hk] at h
      cases hrem : plan_remove rest tid with
      | none =>
        rw [hrem] at h
        exact absurd h (by simp)
      | some p =>
        obtain ⟨v2, rest2⟩ := p
        rw [hrem] at h
        injection h with hp
        obtain ⟨_, h2⟩ := Prod.mk.injEq _ _ _ _ ▸ hp
        subst h2
        simp only [plan_keys, List.map_cons, List.mem_cons]
        rcases hmem with hmem | hmem
        · exact Or.inl hmem
        · exact Or.inr (ih v2 rest2 k hrem hmem hne)

/-- Whether a jump's kind is eligible for retargeting: branch, conditional
branch, or a call-family jump with a return target. -/
def jmp_is_retargetable : Jmp → Bool
  | .Branch _ => true
  | .CBranch _ _ => true
  | .Call _ (some _) => true
  | .CallInd _ (some _) => true
  | .CallOther _ (some _) => true
  | _ => false

theorem retarget_jmp_eq_none_iff (jmp : Jmp) (new_target : Tid) :
    retarget_jmp jmp new_target = none ↔ jmp_is_retargetable jmp = false := by
  cases jmp with
  | Branch t => simp [retarget_jmp, jmp_is_retargetable]
  | CBranch c t => simp [retarget_jmp, jmp_is_retargetable]
  | Call t r => cases r <;> simp [retarget_jmp, jmp_is_retargetable]
  | CallInd t r => cases r <;> simp [retarget_jmp, jmp_is_retargetable]
  | CallOther d r => cases r <;> simp [retarget_jmp, jmp_is_retargetable]
  | Return v => simp [retarget_jmp, jmp_is_retargetable]

/-- The relation "the two jumps differ at most in the target field rewritten
by `retarget_jmp`": same kind, same condition, same call target, same
description, and a return target stays present. -/
def only_target_changed : Jmp → Jmp → Prop
  | .Branch _, .Branch _ => True
  | .CBranch c _, .CBranch c2 _ => c2 = c
  | .Call tgt (some _), .Call tgt2 (some _) => tgt2 = tgt
  | .CallInd tgt (some _), .CallInd tgt2 (some _) => tgt2 = tgt
  | .CallOther d (some _), .CallOther d2 (some _) => d2 = d
  | _, _ => False

theorem retarget_jmp_only_target_changed (jmp : Jmp) (new_target : Tid)
    (jmp2 : Jmp) (h : retarget_jmp jmp new_target = some jmp2) :
    only_target_changed jmp jmp2 := by
  cases jmp with
  | Branch t =>
    injection h with h2
    subst h2
    trivial
  | CBranch c t =>
    injection h with h2
    subst h2
    exact rfl
  | Call t r =>
    cases r with
    | none => exact absurd h (by simp [retarget_jmp])
    | some rt =>
      injection h with h2
      subst h2
      exact rfl
  | CallInd t r =>
    cases r with
    | none => exact absurd h (by simp [retarget_jmp])
    | some rt =>
      injection h with h2
      subst h2
      exact rfl
  | CallOther d r =>
    cases r with
    | none => exact absurd h (by simp [retarget_jmp])
    | some rt =>
      injection h with h2
      subst h2
      exact rfl
  | Return v => exact absurd h (by simp [retarget_jmp])

/-- The frame relation of a single jump under a plan with the given keys:
its identity is unchanged, and it is either untouched or its identity is a
plan key and only its (return-)target field changed. -/
def jmp_frame (keys : List Tid) (j j2 : Term Jmp) : Prop :=
  j2.tid = j.tid ∧ (j2 = j ∨ (j.tid ∈ keys ∧ only_target_changed j.term j2.term))

theorem jmp_frame_mono (keys1 keys2 : List Tid) (hsub : keys1 ⊆ keys2)
    (j j2 : Term Jmp) (h : jmp_frame keys1 j j2) : jmp_frame keys2 j j2 := by
  obtain ⟨htid, h⟩ := h
  refine ⟨htid, ?_⟩
  rcases h with h | ⟨hmem, hch⟩
  · exact Or.inl h
  · exact Or.inr ⟨hsub hmem, hch⟩

theorem retarget_jumps_in_jmps_frame :
    ∀ (jmps : List (Term Jmp)) (plan : List (Tid × Tid))
      (jmps2 : List (Term Jmp)) (plan2 : List (Tid × Tid)),
      retarget_jumps_in_jmps jmps plan = some (jmps2, plan2) →
      List.Forall₂ (jmp_frame (plan_keys plan)) jmps jmps2 ∧
        plan_keys plan2 ⊆ plan_keys plan := by
  intro jmps
  induction jmps with
  | nil =>
    intro plan jmps2 plan2 h
    simp only [retarget_jumps_in_jmps, Option.some.injEq, Prod.mk.injEq] at h
    obtain ⟨h1, h2⟩ := h
    subst h1 h2
    exact ⟨List.Forall₂.nil, fun x hx => hx⟩
  | cons j0 rest ih =>
    intro plan jmps2 plan2 h
    rw [retarget_jumps_in_jmps] at h
    cases hrem : plan_remove plan j0.tid with
    | none =>
      cases hrec : retarget_jumps_in_jmps rest plan with
      | none => simp [hrem, hrec] at h
      | some p =>
        obtain ⟨rest2, plan2x⟩ := p
        simp only [hrem, hrec, Option.some.injEq, Prod.mk.injEq] at h
        obtain ⟨h1, h2⟩ := h
        subst h1 h2
        obtain ⟨hfor, hsub⟩ := ih plan rest2 plan2x hrec
        exact ⟨List.Forall₂.cons ⟨rfl, Or.inl rfl⟩ hfor, hsub⟩
    | some p =>
      obtain ⟨new_target, plan1⟩ := p
      cases hjmp : retarget_jmp j0.term new_target with
      | none => simp [hrem, hjmp] at h
      | some jmp2 =>
        cases hrec : retarget_jumps_in_jmps rest plan1 with
        | none => simp [hrem, hjmp, hrec] at h
        | some p2 =>
          obtain ⟨rest2, plan2x⟩ := p2
          simp only [hrem, hjmp, hrec, Option.some.injEq, Prod.mk.injEq] at h
          obtain ⟨h1, h2⟩ := h
          subst h1 h2
          obtain ⟨hfor, hsub⟩ := ih plan1 rest2 plan2x hrec
          have hkeys := plan_remove_keys_subset plan j0.tid new_target plan1 hrem
          refine ⟨List.Forall₂.cons ?_ (hfor.imp
            (fun a b hab => jmp_frame_mono (plan_keys plan1) (plan_keys plan) hkeys a b hab)), ?_⟩
          · exact ⟨rfl, Or.inr ⟨plan_remove_some_mem plan j0.tid new_target plan1 hrem,
              retarget_jmp_only_target_changed j0.term new_target jmp2 hjmp⟩⟩
          · exact fun x hx => hkeys (hsub hx)

theorem retarget_jumps_in_jmps_preserves_key :
    ∀ (jmps : List (Term Jmp)) (plan : List (Tid × Tid))
      (jmps2 : List (Term Jmp)) (plan2 : List (Tid × Tid)) (k : Tid),
      retarget_jumps_in_jmps jmps plan = some (jmps2, plan2) →
      k ∈ plan_keys plan → (∀ j ∈ jmps, j.tid ≠ k) →
      k ∈ plan_keys plan2 := by
  intro jmps
  induction jmps with
  | nil =>
    intro plan jmps2 plan2 k h hmem _
    simp only [retarget_jumps_in_jmps, Option.some.injEq, Prod.mk.injEq] at h
    obtain ⟨_, h2⟩ := h
    subst h2
    exact hmem
  | cons j0 rest ih =>
    intro plan jmps2 plan2 k h hmem hne
    rw [retarget_jumps_in_jmps] at h
    cases hrem : plan_remove plan j0.tid with
    | none =>
      cases hrec : retarget_jumps_in_jmps rest plan with
      | none => simp [hrem, hrec] at h
      | some p =>
        obtain ⟨rest2, plan2x⟩ := p
        simp only [hrem, hrec, Option.some.injEq, Prod.mk.injEq] at h
        obtain ⟨_, h2⟩ := h
        subst h2
        exact ih plan rest2 plan2x k hrec hmem
          (fun j hj => hne j (List.mem_cons_of_mem j0 hj))
    | some p =>
      obtain ⟨new_target, plan1⟩ := p
      cases hjmp : retarget_jmp j0.term new_target with
      | none => simp [hrem, hjmp] at h
      | some jmp2 =>
        cases hrec : retarget_jumps_in_jmps rest plan1 with
        | none => simp [hrem, hjmp, hrec] at h
        | some p2 =>
          obtain ⟨rest2, plan2x⟩ := p2
          simp only [hrem, hjmp, hrec, Option.some.injEq, Prod.mk.injEq] at h
          obtain ⟨_, h2⟩ := h
          subst h2
          have hmem1 : k ∈ plan_keys plan1 :=
            plan_remove_preserves_other_keys plan j0.tid new_target plan1 k hrem hmem
              (fun hkk => hne j0 (List.mem_cons_self j0 rest) (hkk ▸ rfl))
          exact ih plan1 rest2 plan2x k hrec hmem1
            (fun j hj => hne j (List.mem_cons_of_mem j0 hj))

theorem retarget_jumps_in_jmps_none_of_bad :
    ∀ (jmps : List (Term Jmp)) (plan : List (Tid × Tid)) (j : Term Jmp),
      j ∈ jmps → jmp_is_retargetable j.term = false → j.tid ∈ plan_keys plan →
      ((jmps.map fun x => x.tid).Nodup) →
      retarget_jumps_in_jmps jmps plan = none := by
  intro jmps
  induction jmps with
  | nil =>
    intro plan j hj _ _ _
    exact absurd hj (List.not_mem_nil j)
  | cons j0 rest ih =>
    intro plan j hj hbad hkey hnd
    rw [retarget_jumps_in_jmps]
    rcases List.mem_cons.mp hj with hj0 | hjr
    · subst hj0
      cases hrem : plan_remove plan j.tid with
      | none =>
        exact absurd ((plan_remove_eq_none_iff plan j.tid).mp hrem)
          (fun hcon => hcon hkey)
      | some p =>
        obtain ⟨new_target, plan1⟩ := p
        have hnone : retarget_jmp j.term new_target = none :=
          (retarget_jmp_eq_none_iff j.term new_target).mpr hbad
        simp only [hrem, hnone]
    · have hne : j0.tid ≠ j.tid := by
        intro hcon
        rw [List.map_cons, List.nodup_cons] at hnd
        exact hnd.1 (hcon ▸ List.mem_map.mpr ⟨j, hjr, rfl⟩)
      have hndr : (rest.map fun x => x.tid).Nodup := by
        rw [List.map_cons, List.nodup_cons] at hnd
        exact hnd.2
      cases hrem : plan_remove plan j0.tid with
      | none =>
        have hih := ih plan j hjr hbad hkey hndr
        simp only [hrem, hih]
      | some p =>
        obtain ⟨new_target, plan1⟩ := p
        cases hjmp : retarget_jmp j0.term new_target with
        | none => simp only [hrem, hjmp]
        | some jmp2 =>
          have hkey1 : j.tid ∈ plan_keys plan1 :=
            plan_remove_preserves_other_keys plan j0.tid new_target plan1 j.tid
              hrem hkey (fun hcon => hne hcon.symm)
          have hih := ih plan1 j hjr hbad hkey1 hndr
          simp only [hrem, hjmp, hih]

theorem retarget_jumps_in_jmps_isSome_of_good :
    ∀ (jmps : List (Term Jmp)) (plan : List (Tid × Tid)),
      (∀ j ∈ jmps, j.tid ∈ plan_keys plan → jmp_is_retargetable j.term = true) →
      (retarget_jumps_in_jmps jmps plan).isSome = true := by
  intro jmps
  induction jmps with
  | nil =>
    intro plan _
    rfl
  | cons j0 rest ih =>
    intro plan hgood
    rw [retarget_jumps_in_jmps]
    cases hrem : plan_remove plan j0.tid with
    | none =>
      have hih := ih plan (fun j hj => hgood j (List.mem_cons_of_mem j0 hj))
      cases hrec : retarget_jumps_in_jmps rest plan with
      | none =>
        rw [hrec] at hih
        exact absurd hih (by simp)
      | some p =>
        obtain ⟨rest2, plan2⟩ := p
        simp only [hrem, hrec, Option.isSome_some]
    | some p =>
      obtain ⟨new_target, plan1⟩ := p
      have hret : jmp_is_retargetable j0.term = true :=
        hgood j0 (List.mem_cons_self j0 rest)
          (plan_remove_some_mem plan j0.tid new_target plan1 hrem)
      cases hjmp : retarget_jmp j0.term new_target with
      | none =>
        rw [retarget_jmp_eq_none_iff] at hjmp
        rw [hret] at hjmp
        exact absurd hjmp (by simp)
      | some jmp2 =>
        have hkeys := plan_remove_keys_subset plan j0.tid new_target plan1 hrem
        have hih := ih plan1 (fun j hj hk => hgood j (List.mem_cons_of_mem j0 hj) (hkeys hk))
        cases hrec : retarget_jumps_in_jmps rest plan1 with
        | none =>
          rw [hrec] at hih
          exact absurd hih (by simp)
        | some p2 =>
          obtain ⟨rest2, plan2⟩ := p2
          simp only [hrem, hjmp, hrec, Option.isSome_some]

/-- The frame relation of a single block: identity, definitions and indirect
jump targets unchanged, jumps related by the jump frame relation. -/
def blk_frame (keys : List Tid) (b b2 : Term Blk) : Prop :=
  b2.tid = b.tid ∧ b2.term.defs = b.term.defs ∧
  b2.term.indirect_jmp_targets = b.term.indirect_jmp_targets ∧
  List.Forall₂ (jmp_frame keys) b.term.jmps b2.term.jmps

theorem blk_frame_mono (keys1 keys2 : List Tid) (hsub : keys1 ⊆ keys2)
    (b b2 : Term Blk) (h : blk_frame keys1 b b2) : blk_frame keys2 b b2 := by
  obtain ⟨h1, h2, h3, h4⟩ := h
  exact ⟨h1, h2, h3, h4.imp (fun a c hac => jmp_frame_mono keys1 keys2 hsub a c hac)⟩

/-- The frame relation of a single subroutine. -/
def sub_frame (keys : List Tid) (s s2 : Term Sub) : Prop :=
  s2.tid = s.tid ∧ s2.term.name = s.term.name ∧
  List.Forall₂ (blk_frame keys) s.term.blocks s2.term.blocks

theorem sub_frame_mono (keys1 keys2 : List Tid) (hsub : keys1 ⊆ keys2)
    (s s2 : Term Sub) (h : sub_frame keys1 s s2) : sub_frame keys2 s s2 := by
  obtain ⟨h1, h2, h3⟩ := h
  exact ⟨h1, h2, h3.imp (fun a b hab => blk_frame_mono keys1 keys2 hsub a b hab)⟩

/-- All jump terms of a block list, in iteration order. -/
def jumps_of_blocks : List (Term Blk) → List (Term Jmp)
  | [] => []
  | blk :: rest => blk.term.jmps ++ jumps_of_blocks rest

/-- All jump terms of a subroutine list, in iteration order. -/
def jumps_of_subs : List (Term Sub) → List (Term Jmp)
  | [] => []
  | sub :: rest => jumps_of_blocks sub.term.blocks ++ jumps_of_subs rest

/-- All jump terms of the program, in the iteration order of
`retarget_jumps`. -/
def all_jumps (program : Program) : List (Term Jmp) :=
  jumps_of_subs program.subs

theorem retarget_jumps_in_blocks_frame :
    ∀ (blocks : List (Term Blk)) (plan : List (Tid × Tid))
      (blocks2 : List (Term Blk)) (plan2 : List (Tid × Tid)),
      retarget_jumps_in_blocks blocks plan = some (blocks2, plan2) →
      List.Forall₂ (blk_frame (plan_keys plan)) blocks blocks2 ∧
        plan_keys plan2 ⊆ plan_keys plan := by
  intro blocks
  induction blocks with
  | nil =>
    intro plan blocks2 plan2 h
    simp only [retarget_jumps_in_blocks, Option.some.injEq, Prod.mk.injEq] at h
    obtain ⟨h1, h2⟩ := h
    subst h1 h2
    exact ⟨List.Forall₂.nil, fun x hx => hx⟩
  | cons blk0 rest ih =>
    intro plan blocks2 plan2 h
    rw [retarget_jumps_in_blocks] at h
    cases hjm : retarget_jumps_in_jmps blk0.term.jmps plan with
    | none => simp [hjm] at h
    | some p =>
      obtain ⟨jmps2, plan1⟩ := p
      cases hrec : retarget_jumps_in_blocks rest plan1 with
      | none => simp [hjm, hrec] at h
      | some p2 =>
        obtain ⟨rest2, plan2x⟩ := p2
        simp only [hjm, hrec, Option.some.injEq, Prod.mk.injEq] at h
        obtain ⟨h1, h2⟩ := h
        subst h1 h2
        obtain ⟨hforj, hsubj⟩ :=
          retarget_jumps_in_jmps_frame blk0.term.jmps plan jmps2 plan1 hjm
        obtain ⟨hforb, hsubb⟩ := ih plan1 rest2 plan2x hrec
        refine ⟨List.Forall₂.cons ⟨rfl, rfl, rfl, hforj⟩
          (hforb.imp (fun a b hab =>
            blk_frame_mono (plan_keys plan1) (plan_keys plan) hsubj a b hab)),
          fun x hx => hsubj (hsubb hx)⟩

theorem retarget_jumps_in_blocks_preserves_key :
    ∀ (blocks : List (Term Blk)) (plan : List (Tid × Tid))
      (blocks2 : List (Term Blk)) (plan2 : List (Tid × Tid)) (k : Tid),
      retarget_jumps_in_blocks blocks plan = some (blocks2, plan2) →
      k ∈ plan_keys plan → (∀ j ∈ jumps_of_blocks blocks, j.tid ≠ k) →
      k ∈ plan_keys plan2 := by
  intro blocks
  induction blocks with
  | nil =>
    intro plan blocks2 plan2 k h hmem _
    simp only [retarget_jumps_in_blocks, Option.some.injEq, Prod.mk.injEq] at h
    obtain ⟨_, h2⟩ := h
    subst h2
    exact hmem
  | cons blk0 rest ih =>
    intro plan blocks2 plan2 k h hmem hne
    rw [retarget_jumps_in_blocks] at h
    cases hjm : retarget_jumps_in_jmps blk0.term.jmps plan with
    | none => simp [hjm] at h
    | some p =>
      obtain ⟨jmps2, plan1⟩ := p
      cases hrec : retarget_jumps_in_blocks rest plan1 with
      | none => simp [hjm, hrec] at h
      | some p2 =>
        obtain ⟨rest2, plan2x⟩ := p2
        simp only [hjm, hrec, Option.some.injEq, Prod.mk.injEq] at h
        obtain ⟨_, h2⟩ := h
        subst h2
        have hmem1 : k ∈ plan_keys plan1 :=
          retarget_jumps_in_jmps_preserves_key blk0.term.jmps plan jmps2 plan1 k hjm
            hmem (fun j hj =>
              hne j (by rw [jumps_of_blocks]; exact List.mem_append_left _ hj))
        exact ih plan1 rest2 plan2x k hrec hmem1
          (fun j hj =>
            hne j (by rw [jumps_of_blocks]; exact List.mem_append_right _ hj))

theorem retarget_jumps_in_blocks_none_of_bad :
    ∀ (blocks : List (Term Blk)) (plan : List (Tid × Tid)) (j : Term Jmp),
      j ∈ jumps_of_blocks blocks → jmp_is_retargetable j.term = false →
      j.tid ∈ plan_keys plan →
      (((jumps_of_blocks blocks).map fun x => x.tid).Nodup) →
      retarget_jumps_in_blocks blocks plan = none := by
  intro blocks
  induction blocks with
  | nil =>
    intro plan j hj _ _ _
    exact absurd hj (List.not_mem_nil j)
  | cons blk0 rest ih =>
    intro plan j hj hbad hkey hnd
    rw [jumps_of_blocks] at hj hnd
    rw [List.map_append, List.nodup_append] at hnd
    obtain ⟨hnd1, hnd2, hdisj⟩ := hnd
    rw [retarget_jumps_in_blocks]
    rcases List.mem_append.mp hj with hj0 | hjr
    · have hnone := retarget_jumps_in_jmps_none_of_bad blk0.term.jmps plan j hj0
        hbad hkey hnd1
      simp only [hnone]
    · cases hjm : retarget_jumps_in_jmps blk0.term.jmps plan with
      | none => simp only [hjm]
      | some p =>
        obtain ⟨jmps2, plan1⟩ := p
        have hne : ∀ j2 ∈ blk0.term.jmps, j2.tid ≠ j.tid := by
          intro j2 hj2 hcon
          exact hdisj (List.mem_map.mpr ⟨j2, hj2, rfl⟩)
            (hcon ▸ List.mem_map.mpr ⟨j, hjr, rfl⟩)
        have hkey1 : j.tid ∈ plan_keys plan1 :=
          retarget_jumps_in_jmps_preserves_key blk0.term.jmps plan jmps2 plan1 j.tid
            hjm hkey hne
        have hih := ih plan1 j hjr hbad hkey1 hnd2
        simp only [hjm, hih]

theorem retarget_jumps_in_blocks_isSome_of_good :
    ∀ (blocks : List (Term Blk)) (plan : List (Tid × Tid)),
      (∀ j ∈ jumps_of_blocks blocks, j.tid ∈ plan_keys plan →
        jmp_is_retargetable j.term = true) →
      (retarget_jumps_in_blocks blocks plan).isSome = true := by
  intro blocks
  induction blocks with
  | nil =>
    intro plan _
    rfl
  | cons blk0 rest ih =>
    intro plan hgood
    rw [retarget_jumps_in_blocks]
    have hgood1 : ∀ j ∈ blk0.term.jmps, j.tid ∈ plan_keys plan →
        jmp_is_retargetable j.term = true := fun j hj =>
      hgood j (by rw [jumps_of_blocks]; exact List.mem_append_left _ hj)
    have hs := retarget_jumps_in_jmps_isSome_of_good blk0.term.jmps plan hgood1
    cases hjm : retarget_jumps_in_jmps blk0.term.jmps plan with
    | none =>
      rw [hjm] at hs
      exact absurd hs (by simp)
    | some p =>
      obtain ⟨jmps2, plan1⟩ := p
      have hsubj := (retarget_jumps_in_jmps_frame blk0.term.jmps plan jmps2 plan1 hjm).2
      have hgood2 : ∀ j ∈ jumps_of_blocks rest, j.tid ∈ plan_keys plan1 →
          jmp_is_retargetable j.term = true := fun j hj hk =>
        hgood j (by rw [jumps_of_blocks]; exact List.mem_append_right _ hj) (hsubj hk)
      have hih := ih plan1 hgood2
      cases hrec : retarget_jumps_in_blocks rest plan1 with
      | none =>
        rw [hrec] at hih
        exact absurd hih (by simp)
      | some p2 =>
        obtain ⟨rest2, plan2⟩ := p2
        simp only [hjm, hrec, Option.isSome_some]

theorem retarget_jumps_in_subs_frame :
    ∀ (subs : List (Term Sub)) (plan : List (Tid × Tid))
      (subs2 : List (Term Sub)) (plan2 : List (Tid × Tid)),
      retarget_jumps_in_subs subs plan = some (subs2, plan2) →
      List.Forall₂ (sub_frame (plan_keys plan)) subs subs2 ∧
        plan_keys plan2 ⊆ plan_keys plan := by
  intro subs
  induction subs with
  | nil =>
    intro plan subs2 plan2 h
    simp only [retarget_jumps_in_subs, Option.some.injEq, Prod.mk.injEq] at h
    obtain ⟨h1, h2⟩ := h
    subst h1 h2
    exact ⟨List.Forall₂.nil, fun x hx => hx⟩
  | cons sub0 rest ih =>
    intro plan subs2 plan2 h
    rw [retarget_jumps_in_subs] at h
    cases hbl : retarget_jumps_in_blocks sub0.term.blocks plan with
    | none => simp [hbl] at h
    | some p =>
      obtain ⟨blocks2, plan1⟩ := p
      cases hrec : retarget_jumps_in_subs rest plan1 with
      | none => simp [hbl, hrec] at h
      | some p2 =>
        obtain ⟨rest2, plan2x⟩ := p2
        simp only [hbl, hrec, Option.some.injEq, Prod.mk.injEq] at h
        obtain ⟨h1, h2⟩ := h
        subst h1 h2
        obtain ⟨hforb, hsubb⟩ :=
          retarget_jumps_in_blocks_frame sub0.term.blocks plan blocks2 plan1 hbl
        obtain ⟨hfors, hsubs⟩ := ih plan1 rest2 plan2x hrec
        refine ⟨List.Forall₂.cons ⟨rfl, rfl, hforb⟩
          (hfors.imp (fun a b hab =>
            sub_frame_mono (plan_keys plan1) (plan_keys plan) hsubb a b hab)),
          fun x hx => hsubb (hsubs hx)⟩

theorem retarget_jumps_in_subs_none_of_bad :
    ∀ (subs : List (Term Sub)) (plan : List (Tid × Tid)) (j : Term Jmp),
      j ∈ jumps_of_subs subs → jmp_is_retargetable j.term = false →
      j.tid ∈ plan_keys plan →
      (((jumps_of_subs subs).map fun x => x.tid).Nodup) →
      retarget_jumps_in_subs subs plan = none := by
  intro subs
  induction subs with
  | nil =>
    intro plan j hj _ _ _
    exact absurd hj (List.not_mem_nil j)
  | cons sub0 rest ih =>
    intro plan j hj hbad hkey hnd
    rw [jumps_of_subs] at hj hnd
    rw [List.map_append, List.nodup_append] at hnd
    obtain ⟨hnd1, hnd2, hdisj⟩ := hnd
    rw [retarget_jumps_in_subs]
    rcases List.mem_append.mp hj with hj0 | hjr
    · have hnone := retarget_jumps_in_blocks_none_of_bad sub0.term.blocks plan j hj0
        hbad hkey hnd1
      simp only [hnone]
    · cases hbl : retarget_jumps_in_blocks sub0.term.blocks plan with
      | none => simp only [hbl]
      | some p =>
        obtain ⟨blocks2, plan1⟩ := p
        have hne : ∀ j2 ∈ jumps_of_blocks sub0.term.blocks, j2.tid ≠ j.tid := by
          intro j2 hj2 hcon
          exact hdisj (List.mem_map.mpr ⟨j2, hj2, rfl⟩)
            (hcon ▸ List.mem_map.mpr ⟨j, hjr, rfl⟩)
        have hkey1 : j.tid ∈ plan_keys plan1 :=
          retarget_jumps_in_blocks_preserves_key sub0.term.blocks plan blocks2 plan1
            j.tid hbl hkey hne
        have hih := ih plan1 j hjr hbad hkey1 hnd2
        simp only [hbl, hih]

theorem retarget_jumps_in_subs_isSome_of_good :
    ∀ (subs : List (Term Sub)) (plan : List (Tid × Tid)),
      (∀ j ∈ jumps_of_subs subs, j.tid ∈ plan_keys plan →
        jmp_is_retargetable j.term = true) →
      (retarget_jumps_in_subs subs plan).isSome = true := by
  intro subs
  induction subs with
  | nil =>
    intro plan _
    rfl
  | cons sub0 rest ih =>
    intro plan hgood
    rw [retarget_jumps_in_subs]
    have hgood1 : ∀ j ∈ jumps_of_blocks sub0.term.blocks, j.tid ∈ plan_keys plan →
        jmp_is_retargetable j.term = true := fun j hj =>
      hgood j (by rw [jumps_of_subs]; exact List.mem_append_left _ hj)
    have hs := retarget_jumps_in_blocks_isSome_of_good sub0.term.blocks plan hgood1
    cases hbl : retarget_jumps_in_blocks sub0.term.blocks plan with
    | none =>
      rw [hbl] at hs
      exact absurd hs (by simp)
    | some p =>
      obtain ⟨blocks2, plan1⟩ := p
      have hsubb := (retarget_jumps_in_blocks_frame sub0.term.blocks plan blocks2
        plan1 hbl).2
      have hgood2 : ∀ j ∈ jumps_of_subs rest, j.tid ∈ plan_keys plan1 →
          jmp_is_retargetable j.term = true := fun j hj hk =>
        hgood j (by rw [jumps_of_subs]; exact List.mem_append_right _ hj) (hsubb hk)
      have hih := ih plan1 hgood2
      cases hrec : retarget_jumps_in_subs rest plan1 with
      | none =>
        rw [hrec] at hih
        exact absurd hih (by simp)
      | some p2 =>
        obtain ⟨rest2, plan2⟩ := p2
        simp only [hbl, hrec, Option.isSome_some]

/-- C10: if the graph rewriter finishes normally, every subroutine of the
result corresponds to a source subroutine with the same identity and name,
with blocks of the same identities, definitions, indirect jump targets,
number and order, whose jumps keep their identities and kinds: a jump whose
identity is not a key of the plan is unchanged, and a jump that did change
has its identity in the plan and differs at most in its target field (for
branches) or return-target field (for call-family jumps). -/
theorem retarget_jumps_frame (program : Program) (plan : List (Tid × Tid))
    (program2 : Program) (h : retarget_jumps program plan = some program2) :
    List.Forall₂ (sub_frame (plan_keys plan)) program.subs program2.subs := by
  unfold retarget_jumps at h
  cases hs : retarget_jumps_in_subs program.subs plan with
  | none =>
    rw [hs] at h
    exact absurd h (by simp)
  | some p =>
    obtain ⟨subs2, plan2⟩ := p
    rw [hs] at h
    injection h with h2
    subst h2
    exact (retarget_jumps_in_subs_frame program.subs plan subs2 plan2 hs).1

/-- Witness for C10: a one-subroutine program whose branch jump is retargeted
by the plan. -/
theorem retarget_jumps_frame_witness :
    List.Forall₂
      (sub_frame (plan_keys [(⟨2⟩, ⟨7⟩)]))
      (Program.mk [⟨⟨0⟩, ⟨0, [⟨⟨1⟩, ⟨[], [⟨⟨2⟩, .Branch ⟨9⟩⟩], []⟩⟩]⟩⟩]).subs
      (Program.mk [⟨⟨0⟩, ⟨0, [⟨⟨1⟩, ⟨[], [⟨⟨2⟩, .Branch ⟨7⟩⟩], []⟩⟩]⟩⟩]).subs :=
  retarget_jumps_frame
    (Program.mk [⟨⟨0⟩, ⟨0, [⟨⟨1⟩, ⟨[], [⟨⟨2⟩, .Branch ⟨9⟩⟩], []⟩⟩]⟩⟩])
    [(⟨2⟩, ⟨7⟩)]
    (Program.mk [⟨⟨0⟩, ⟨0, [⟨⟨1⟩, ⟨[], [⟨⟨2⟩, .Branch ⟨7⟩⟩], []⟩⟩]⟩⟩])
    (by decide)

/-- C4 counterexample: a plan entry whose key matches no jump identity in the
program is left unconsumed, yet the rewriter finishes normally (it does not
abort), contradicting the claim that it never finishes normally while a plan
entry remains unconsumed. -/
theorem retarget_jumps_counterexample :
    retarget_jumps
        (Program.mk [⟨⟨0⟩, ⟨0, [⟨⟨1⟩, ⟨[], [⟨⟨2⟩, .Branch ⟨1⟩⟩], []⟩⟩]⟩⟩])
        [(⟨99⟩, ⟨5⟩)] =
      some (Program.mk [⟨⟨0⟩, ⟨0, [⟨⟨1⟩, ⟨[], [⟨⟨2⟩, .Branch ⟨1⟩⟩], []⟩⟩]⟩⟩]) ∧
    [((⟨99⟩ : Tid), (⟨5⟩ : Tid))] ≠ [] ∧
    ∀ j ∈ all_jumps
        (Program.mk [⟨⟨0⟩, ⟨0, [⟨⟨1⟩, ⟨[], [⟨⟨2⟩, .Branch ⟨1⟩⟩], []⟩⟩]⟩⟩]),
      j.tid ∉ plan_keys [((⟨99⟩ : Tid), (⟨5⟩ : Tid))] := by
  refine ⟨by decide, by decide, by decide⟩

/-- C4 (amended): assuming the program's jump identities are pairwise
distinct, a plan entry whose key is the identity of a jump of a
non-retargetable kind (not a branch, conditional branch, or call-family jump
with a return target) makes the rewriter abort fatally; and when every plan
key that matches some jump's identity matches a retargetable jump, the
rewriter finishes normally — plan entries matching no jump identity are
dropped without effect rather than aborting. -/
theorem retarget_jumps_mismatch_behavior (program : Program)
    (plan : List (Tid × Tid))
    (hnd : ((all_jumps program).map fun j => j.tid).Nodup) :
    ((∃ j ∈ all_jumps program,
        jmp_is_retargetable j.term = false ∧ j.tid ∈ plan_keys plan) →
      retarget_jumps program plan = none) ∧
    ((∀ j ∈ all_jumps program, j.tid ∈ plan_keys plan →
        jmp_is_retargetable j.term = true) →
      (retarget_jumps program plan).isSome = true) := by
  constructor
  · intro ⟨j, hj, hbad, hkey⟩
    unfold retarget_jumps
    have hnone := retarget_jumps_in_subs_none_of_bad program.subs plan j hj hbad
      hkey hnd
    simp only [hnone]
  · intro hgood
    unfold retarget_jumps
    have hs := retarget_jumps_in_subs_isSome_of_good program.subs plan hgood
    cases hrs : retarget_jumps_in_subs program.subs plan with
    | none =>
      rw [hrs] at hs
      exact absurd hs (by simp)
    | some p =>
      obtain ⟨subs2, plan2⟩ := p
      simp only [hrs, Option.isSome_some]

/-- Witness for C4 (amended): a program whose only jump is a bare return
whose identity is a plan key makes the rewriter abort. -/
theorem retarget_jumps_mismatch_behavior_witness :
    retarget_jumps
        (Program.mk [⟨⟨0⟩, ⟨0, [⟨⟨1⟩, ⟨[], [⟨⟨2⟩, .Return (.Const 0)⟩], []⟩⟩]⟩⟩])
        [(⟨2⟩, ⟨5⟩)] = none :=
  (retarget_jumps_mismatch_behavior
    (Program.mk [⟨⟨0⟩, ⟨0, [⟨⟨1⟩, ⟨[], [⟨⟨2⟩, .Return (.Const 0)⟩], []⟩⟩]⟩⟩])
    [(⟨2⟩, ⟨5⟩)] (by decide)).1 (by decide)

end PropagateControlFlow
